import Mathlib

/-!
Shallow embedding of the `mini-blockchain` Rust crate (modules `block.rs`,
`blockchain.rs`, `transaction.rs`, `wallet.rs`).

Modelling conventions:
* Bytes are `Nat` values below 256; SHA-256 (the `sha2` crate) is implemented
  concretely below, and the `serde_json` canonical serialization used by
  `Block::prepare_hash_data` and `Transaction::calculate_hash` is reproduced
  byte for byte.
* A `PublicKey` (a `p256::ecdsa::VerifyingKey`) is identified with the hex
  encoding of its compressed SEC1 point, which is exactly the representation
  the program serializes, hashes and compares; a `Signature` is identified
  with the hex encoding of its bytes.  ECDSA signing and verification are
  external library operations, so signature verification is a parameter
  (`Verify`) of every definition that calls `Transaction::is_valid`, and a
  wallet's secret key is represented by the signing function it induces.
* `Utc::now().timestamp()` is an input: constructors take the current time
  as an explicit `Int` argument.
* The unbounded proof-of-work loop in `Block::mine` is embedded with an
  explicit fuel bound (`none` = the loop has not finished within `fuel`
  iterations); the `unwrap()`/indexing panics in `Blockchain` are the
  `MineResult.panicked` outcome.
* `u64` fields are `Nat`, `i64` fields are `Int`; everywhere the program's
  machine-integer arithmetic is observable — the `tx.amount as i64` cast and
  the `i64` balance accumulation in `Blockchain::get_balance`, and the `i64`
  timestamp subtraction in `Blockchain::adjust_difficulty` — the model uses
  explicit two's-complement wrapping (`u64AsI64`, `wrap64`), the
  release-profile behavior (a debug build panics on overflow instead).
-/

namespace MiniBlockchain

/-! ## SHA-256 (the `sha2` crate's `Sha256`) -/

/-- Truncate to a 32-bit word. -/
def m32 (n : Nat) : Nat := n % 4294967296

/-- Right rotation of a 32-bit word. -/
def rotr (x n : Nat) : Nat := (x >>> n) ||| m32 (x <<< (32 - n))

def bigSigma0 (x : Nat) : Nat := rotr x 2 ^^^ rotr x 13 ^^^ rotr x 22

def bigSigma1 (x : Nat) : Nat := rotr x 6 ^^^ rotr x 11 ^^^ rotr x 25

def smallSigma0 (x : Nat) : Nat := rotr x 7 ^^^ rotr x 18 ^^^ (x >>> 3)

def smallSigma1 (x : Nat) : Nat := rotr x 17 ^^^ rotr x 19 ^^^ (x >>> 10)

def shaCh (x y z : Nat) : Nat := (x &&& y) ^^^ ((x ^^^ 4294967295) &&& z)

def shaMaj (x y z : Nat) : Nat := (x &&& y) ^^^ (x &&& z) ^^^ (y &&& z)

/-- The SHA-256 round constants. -/
def shaK : List Nat :=
  [1116352408, 1899447441, 3049323471, 3921009573, 961987163,
   1508970993, 2453635748, 2870763221, 3624381080, 310598401,
   607225278, 1426881987, 1925078388, 2162078206, 2614888103,
   3248222580, 3835390401, 4022224774, 264347078, 604807628,
   770255983, 1249150122, 1555081692, 1996064986, 2554220882,
   2821834349, 2952996808, 3210313671, 3336571891, 3584528711,
   113926993, 338241895, 666307205, 773529912, 1294757372,
   1396182291, 1695183700, 1986661051, 2177026350, 2456956037,
   2730485921, 2820302411, 3259730800, 3345764771, 3516065817,
   3600352804, 4094571909, 275423344, 430227734, 506948616,
   659060556, 883997877, 958139571, 1322822218, 1537002063,
   1747873779, 1955562222, 2024104815, 2227730452, 2361852424,
   2428436474, 2756734187, 3204031479, 3329325298]

/-- The eight working registers of the compression function. -/
structure Regs where
  a : Nat
  b : Nat
  c : Nat
  d : Nat
  e : Nat
  f : Nat
  g : Nat
  h : Nat
deriving Repr, DecidableEq

/-- The intermediate hash value. -/
structure Sha8 where
  h0 : Nat
  h1 : Nat
  h2 : Nat
  h3 : Nat
  h4 : Nat
  h5 : Nat
  h6 : Nat
  h7 : Nat
deriving Repr, DecidableEq

/-- SHA-256 initial hash value. -/
def shaInit : Sha8 :=
  ⟨1779033703, 3144134277, 1013904242, 2773480762,
   1359893119, 2600822924, 528734635, 1541459225⟩

/-- Group bytes into big-endian 32-bit words. -/
def bytesToWords : List Nat → List Nat
  | b0 :: b1 :: b2 :: b3 :: rest =>
      (b0 * 16777216 + b1 * 65536 + b2 * 256 + b3) :: bytesToWords rest
  | _ => []

/-- Extend the 16-word message block to the 64-word schedule (`k` more words). -/
def extendW : Nat → List Nat → List Nat
  | 0, w => w
  | k + 1, w =>
      let n := w.length
      extendW k (w ++ [m32 (smallSigma1 (w.getD (n - 2) 0) + w.getD (n - 7) 0 +
        smallSigma0 (w.getD (n - 15) 0) + w.getD (n - 16) 0)])

def roundStep (r : Regs) (k w : Nat) : Regs :=
  let t1 := m32 (r.h + bigSigma1 r.e + shaCh r.e r.f r.g + k + w)
  let t2 := m32 (bigSigma0 r.a + shaMaj r.a r.b r.c)
  ⟨m32 (t1 + t2), r.a, r.b, r.c, m32 (r.d + t1), r.e, r.f, r.g⟩

def roundsGo : List Nat → List Nat → Regs → Regs
  | k :: ks, w :: ws, r => roundsGo ks ws (roundStep r k w)
  | _, _, r => r

def processChunk (s : Sha8) (chunk : List Nat) : Sha8 :=
  let w := extendW 48 (bytesToWords chunk)
  let r := roundsGo shaK w ⟨s.h0, s.h1, s.h2, s.h3, s.h4, s.h5, s.h6, s.h7⟩
  ⟨m32 (s.h0 + r.a), m32 (s.h1 + r.b), m32 (s.h2 + r.c), m32 (s.h3 + r.d),
   m32 (s.h4 + r.e), m32 (s.h5 + r.f), m32 (s.h6 + r.g), m32 (s.h7 + r.h)⟩

/-- The 8-byte big-endian encoding of the bit length. -/
def lenBytes (n : Nat) : List Nat :=
  let m := n % 18446744073709551616
  [m >>> 56, (m >>> 48) &&& 255, (m >>> 40) &&& 255, (m >>> 32) &&& 255,
   (m >>> 24) &&& 255, (m >>> 16) &&& 255, (m >>> 8) &&& 255, m &&& 255]

/-- SHA-256 padding: `0x80`, zeros to 56 mod 64, then the 64-bit bit length. -/
def padBytes (msg : List Nat) : List Nat :=
  let L := msg.length
  msg ++ [128] ++ List.replicate ((119 - (L % 64)) % 64) 0 ++ lenBytes (8 * L)

/-- Split into successive 64-byte chunks; the first argument is a structural
recursion bound, always instantiated with the length of the list, which
suffices because every step consumes at least one element. -/
def chunksGo : Nat → List Nat → List (List Nat)
  | 0, _ => []
  | _, [] => []
  | n + 1, a :: rest => ((a :: rest).take 64) :: chunksGo n (rest.drop 63)

/-- Split into successive 64-byte chunks. -/
def chunksOf64 (l : List Nat) : List (List Nat) := chunksGo l.length l

/-- Big-endian bytes of one hash word. -/
def wordBytes (w : Nat) : List Nat :=
  [(w >>> 24) &&& 255, (w >>> 16) &&& 255, (w >>> 8) &&& 255, w &&& 255]

def digestBytes (s : Sha8) : List Nat :=
  wordBytes s.h0 ++ wordBytes s.h1 ++ wordBytes s.h2 ++ wordBytes s.h3 ++
  wordBytes s.h4 ++ wordBytes s.h5 ++ wordBytes s.h6 ++ wordBytes s.h7

/-- SHA-256 of a byte sequence, as its 32-byte digest. -/
def sha256 (msg : List Nat) : List Nat :=
  digestBytes ((chunksOf64 (padBytes msg)).foldl processChunk shaInit)

/-- Lowercase hex digit, as in Rust's `format("\x7b:x\x7d", ...)`. -/
def hexDigitChar (n : Nat) : Char :=
  if n < 10 then Char.ofNat (48 + n) else Char.ofNat (87 + n)

def byteHexChars (b : Nat) : List Char := [hexDigitChar (b / 16), hexDigitChar (b % 16)]

/-- The lowercase 64-character hex rendering of a SHA-256 digest. -/
def sha256hex (msg : List Nat) : String :=
  String.mk ((sha256 msg).flatMap byteHexChars)

/-! ## UTF-8 and the `serde_json` canonical serialization -/

/-- UTF-8 encoding of one code point. -/
def utf8EncodeCharNat (n : Nat) : List Nat :=
  if n < 128 then [n]
  else if n < 2048 then [192 + n / 64, 128 + n % 64]
  else if n < 65536 then [224 + n / 4096, 128 + (n / 64) % 64, 128 + n % 64]
  else [240 + n / 262144, 128 + (n / 4096) % 64, 128 + (n / 64) % 64, 128 + n % 64]

/-- The UTF-8 bytes of a string. -/
def utf8Bytes (s : String) : List Nat :=
  s.data.flatMap (fun c => utf8EncodeCharNat c.toNat)

/-- Lowercase hex digit as a byte. -/
def hexDigitByte (n : Nat) : Nat := if n < 10 then 48 + n else 87 + n

/-- `serde_json` escaping of one character inside a JSON string: `"` and `\`
are backslash-escaped, control characters below 0x20 get their short escape
or a `\u00XX` escape, and everything else passes through as UTF-8. -/
def jsonEscapeCharBytes (n : Nat) : List Nat :=
  if n = 34 then [92, 34]
  else if n = 92 then [92, 92]
  else if n = 8 then [92, 98]
  else if n = 9 then [92, 116]
  else if n = 10 then [92, 110]
  else if n = 12 then [92, 102]
  else if n = 13 then [92, 114]
  else if n < 32 then [92, 117, 48, 48, hexDigitByte (n / 16), hexDigitByte (n % 16)]
  else utf8EncodeCharNat n

/-- A JSON string literal, as `serde_json` prints it. -/
def jsonStringBytes (s : String) : List Nat :=
  34 :: ((s.data.flatMap (fun c => jsonEscapeCharBytes c.toNat)) ++ [34])

/-- A JSON unsigned number. -/
def natDecBytes (n : Nat) : List Nat := utf8Bytes (toString n)

/-- A JSON signed number. -/
def intDecBytes (i : Int) : List Nat := utf8Bytes (toString i)

/-- An optional string field: `null` or the string, as `serde` serializes
`Option` (this covers both the `PublicKey` serializer, which writes the hex
encoding of the compressed point, and the signature serializer, which writes
the hex encoding of the signature bytes). -/
def jsonOptStringBytes : Option String → List Nat
  | none => utf8Bytes "null"
  | some s => jsonStringBytes s

/-! ## transaction.rs -/

/-- A `p256::ecdsa::VerifyingKey`, identified with the hex encoding of its
compressed SEC1 point (the exact form the program serializes and compares). -/
abbrev PublicKey := String

/-- A `p256::ecdsa::Signature`, identified with the hex encoding of its bytes. -/
abbrev Sig := String

/-- The external `p256` operation `VerifyingKey::verify_prehash`, taking the
32-byte digest, the signature and the key; `true` = `is_ok()`.  It is a
parameter of every definition that checks transaction validity, since the
elliptic-curve mathematics lives outside this crate. -/
abbrev Verify := List Nat → Sig → PublicKey → Bool

structure Transaction where
  source : Option PublicKey
  destination : PublicKey
  amount : Nat
  signature : Option Sig
deriving Repr, DecidableEq

/-- `Transaction::calculate_hash`: SHA-256 of
`serde_json::to_vec(&(&self.source, &self.destination, &self.amount))`;
a 3-tuple serializes as a JSON array, and the signature is not included. -/
def Transaction.calculate_hash (tx : Transaction) : List Nat :=
  sha256 (utf8Bytes "[" ++ jsonOptStringBytes tx.source ++ utf8Bytes "," ++
    jsonStringBytes tx.destination ++ utf8Bytes "," ++ natDecBytes tx.amount ++
    utf8Bytes "]")

/-- `Transaction::is_valid`. -/
def Transaction.is_valid (verify : Verify) (tx : Transaction) : Bool :=
  match tx.source, tx.signature with
  | some source_key, some signature => verify tx.calculate_hash signature source_key
  | none, none => true
  | _, _ => false

/-- `Transaction::new_coinbase`. -/
def Transaction.new_coinbase (destination : PublicKey) (amount : Nat) : Transaction :=
  { source := none, destination := destination, amount := amount, signature := none }

/-- A `Wallet` (wallet.rs): the secret `SigningKey` is represented by the
signing function it induces via the external `p256` operation
`SigningKey::sign_prehash` (`sign_prehashed` takes the 32-byte digest). -/
structure Wallet where
  public_key : PublicKey
  sign_prehashed : List Nat → Sig

/-- `Transaction::new`: build the transaction without a signature, hash it,
then sign that digest with the sender's wallet. -/
def Transaction.new (sender_wallet : Wallet) (destination : PublicKey) (amount : Nat) :
    Transaction :=
  let tx : Transaction :=
    { source := some sender_wallet.public_key, destination := destination,
      amount := amount, signature := none }
  { tx with signature := some (sender_wallet.sign_prehashed tx.calculate_hash) }

/-! ## block.rs -/

structure Block where
  index : Nat
  timestamp : Int
  transactions : List Transaction
  previous_hash : String
  hash : String
  nonce : Nat
  difficulty : Nat
deriving Repr, DecidableEq

/-- `Block::new` (the current wall-clock time is the explicit `now` input). -/
def Block.new (index : Nat) (transactions : List Transaction) (previous_hash : String)
    (difficulty : Nat) (now : Int) : Block :=
  { index := index, timestamp := now, transactions := transactions,
    previous_hash := previous_hash, hash := "", nonce := 0, difficulty := difficulty }

/-- The serialized transaction list inside `prepare_hash_data`. -/
def txJsonBytes (tx : Transaction) : List Nat :=
  utf8Bytes "\x7b\"source\":" ++ jsonOptStringBytes tx.source ++
  utf8Bytes ",\"destination\":" ++ jsonStringBytes tx.destination ++
  utf8Bytes ",\"amount\":" ++ natDecBytes tx.amount ++
  utf8Bytes ",\"signature\":" ++ jsonOptStringBytes tx.signature ++
  utf8Bytes "\x7d"

def txsJsonBytes (l : List Transaction) : List Nat :=
  utf8Bytes "[" ++ List.intercalate (utf8Bytes ",") (l.map txJsonBytes) ++ utf8Bytes "]"

/-- `Block::prepare_hash_data`: the UTF-8 bytes of
`serde_json::to_string(&(&index, &timestamp, &transactions, &previous_hash,
&nonce, &difficulty))` — the stored `hash` is not part of it. -/
def Block.prepare_hash_data (b : Block) : List Nat :=
  utf8Bytes "[" ++ natDecBytes b.index ++ utf8Bytes "," ++ intDecBytes b.timestamp ++
  utf8Bytes "," ++ txsJsonBytes b.transactions ++ utf8Bytes "," ++
  jsonStringBytes b.previous_hash ++ utf8Bytes "," ++ natDecBytes b.nonce ++
  utf8Bytes "," ++ natDecBytes b.difficulty ++ utf8Bytes "]"

/-- The body of `Block::mine`'s loop: hash, test the `difficulty`-zeros
target, commit on success, otherwise bump the nonce and retry.  The `fuel`
argument bounds the number of iterations of the (in Rust, unbounded) loop:
`none` means the loop has not terminated within `fuel` attempts. -/
def mineLoop (zeros : List Char) (b : Block) : Nat → Option Block
  | 0 => none
  | fuel + 1 =>
    let new_hash := sha256hex b.prepare_hash_data
    if zeros.isPrefixOf new_hash.data then some { b with hash := new_hash }
    else mineLoop zeros { b with nonce := b.nonce + 1 } fuel

/-- `Block::mine` with the target `"0".repeat(difficulty)`. -/
def Block.mine (fuel : Nat) (b : Block) : Option Block :=
  mineLoop (List.replicate b.difficulty '0') b fuel

/-! ## blockchain.rs -/

def MINING_REWARD : Nat := 100

def DIFFICULTY_ADJUSTMENT_INTERVAL : Nat := 10

def TARGET_BLOCK_TIME_SECS : Int := 30

structure Blockchain where
  chain : List Block
  mempool : List Transaction
  difficulty : Nat
deriving Repr, DecidableEq

/-- `Blockchain::new`: mine a genesis block (index 0, no transactions,
previous hash `"0"`, difficulty 2); `none` only when the genesis
proof-of-work search exceeds `fuel`. -/
def Blockchain.new (fuel : Nat) (now : Int) : Option Blockchain :=
  (Block.mine fuel (Block.new 0 [] "0" 2 now)).map
    (fun genesis_block => { chain := [genesis_block], mempool := [], difficulty := 2 })

/-- `Blockchain::add_transaction`: `none` is the `bail!` error path (taken
before any mutation, so the state is unchanged there); on success the
transaction is pushed onto the mempool. -/
def Blockchain.add_transaction (verify : Verify) (bc : Blockchain) (tx : Transaction) :
    Option Blockchain :=
  if tx.is_valid verify then some { bc with mempool := bc.mempool ++ [tx] } else none

/-- The `u64` → `i64` `as` cast (`tx.amount as i64`): reinterpret the low 64
bits in two's complement. -/
def u64AsI64 (a : Nat) : Int :=
  if a % 18446744073709551616 < 9223372036854775808 then (a % 18446744073709551616 : Int)
  else (a % 18446744073709551616 : Int) - 18446744073709551616

/-- Wrapping `i64` arithmetic: the release-profile behavior of `i64`
addition and subtraction, used by the timestamp subtraction in
`adjust_difficulty` and the `+=`/`-=` balance accumulation in
`get_balance` (a debug build panics on overflow instead of wrapping). -/
def wrap64 (z : Int) : Int :=
  (z + 9223372036854775808) % 18446744073709551616 - 9223372036854775808

/-- `Blockchain::adjust_difficulty`, returning the new difficulty; `none` is
a panic: either `chain.last().unwrap()` on an empty chain, or the indexing
`chain[latest.index - 10]` out of bounds.  The elapsed time is the `i64`
subtraction of the two timestamps, which wraps (release profile). -/
def Blockchain.adjust_difficulty (bc : Blockchain) : Option Nat :=
  match bc.chain.getLast? with
  | none => none
  | some latest_block =>
    if 0 < latest_block.index ∧ latest_block.index % DIFFICULTY_ADJUSTMENT_INTERVAL = 0 then
      match bc.chain[latest_block.index - DIFFICULTY_ADJUSTMENT_INTERVAL]? with
      | none => none
      | some interval_start_block =>
        let time_taken := wrap64 (latest_block.timestamp - interval_start_block.timestamp)
        let expected_time := (DIFFICULTY_ADJUSTMENT_INTERVAL : Int) * TARGET_BLOCK_TIME_SECS
        if time_taken < expected_time / 2 then some (bc.difficulty + 1)
        else if time_taken > expected_time * 2 ∧ 1 < bc.difficulty then some (bc.difficulty - 1)
        else some bc.difficulty
    else some bc.difficulty

/-- The outcome of `Blockchain::mine_pending_transactions`: `ok` is the (only)
`Result::Ok` return, `panicked` an `unwrap`/indexing panic, `fuelOut` means
the proof-of-work loop did not finish within `fuel` iterations. -/
inductive MineResult where
  | ok (bc : Blockchain)
  | panicked
  | fuelOut
deriving Repr, DecidableEq

/-- `Blockchain::mine_pending_transactions`: build the coinbase reward,
prepend it to a copy of the mempool, adjust the difficulty, build a block at
index `chain.len()` linked to the last block's hash, mine it, append it and
clear the mempool. -/
def Blockchain.mine_pending_transactions (fuel : Nat) (now : Int) (bc : Blockchain)
    (miner_address : PublicKey) : MineResult :=
  let reward_tx := Transaction.new_coinbase miner_address MINING_REWARD
  let transactions_for_block := reward_tx :: bc.mempool
  match bc.adjust_difficulty with
  | none => MineResult.panicked
  | some d =>
    match bc.chain.getLast? with
    | none => MineResult.panicked
    | some last =>
      let new_block := Block.new bc.chain.length transactions_for_block last.hash d now
      match Block.mine fuel new_block with
      | none => MineResult.fuelOut
      | some mined => MineResult.ok { chain := bc.chain ++ [mined], mempool := [], difficulty := d }

/-- One transaction's effect on the running balance, in the order the code
applies it: add when the destination matches, then subtract when the source
matches. -/
def balStep (address : PublicKey) (balance : Int) (tx : Transaction) : Int :=
  let b1 := if tx.destination = address then wrap64 (balance + u64AsI64 tx.amount) else balance
  if tx.source = some address then wrap64 (b1 - u64AsI64 tx.amount) else b1

/-- `Blockchain::get_balance`: replay every transaction of every block. -/
def Blockchain.get_balance (bc : Blockchain) (address : PublicKey) : Int :=
  bc.chain.foldl (fun b blk => blk.transactions.foldl (balStep address) b) 0

/-- The loop body of `Blockchain::is_chain_valid`, checking each block against
its predecessor: hash linkage first, then every transaction's validity. -/
def chainCheckFrom (verify : Verify) : Block → List Block → Bool
  | _, [] => true
  | previous_block, current_block :: rest =>
    ((current_block.previous_hash == previous_block.hash) &&
      current_block.transactions.all (fun tx => tx.is_valid verify)) &&
    chainCheckFrom verify current_block rest

/-- `Blockchain::is_chain_valid`: the loop runs over indices `1..len`, so the
genesis block is never the checked block (only a predecessor). -/
def Blockchain.is_chain_valid (verify : Verify) (bc : Blockchain) : Bool :=
  match bc.chain with
  | [] => true
  | g :: rest => chainCheckFrom verify g rest

/-- The states reachable through the public state-changing API:
`Blockchain::new`, then any sequence of successful `add_transaction` and
`mine_pending_transactions` calls. -/
inductive Reachable (verify : Verify) : Blockchain → Prop where
  | base (fuel : Nat) (now : Int) (bc : Blockchain) :
      Blockchain.new fuel now = some bc → Reachable verify bc
  | add (bc : Blockchain) (tx : Transaction) (bc' : Blockchain) :
      Reachable verify bc → Blockchain.add_transaction verify bc tx = some bc' →
      Reachable verify bc'
  | mine (bc : Blockchain) (fuel : Nat) (now : Int) (m : PublicKey) (bc' : Blockchain) :
      Reachable verify bc →
      Blockchain.mine_pending_transactions fuel now bc m = MineResult.ok bc' →
      Reachable verify bc'

/-! ## Helper lemmas -/

theorem length_flatMap_byteHexChars (l : List Nat) :
    (l.flatMap byteHexChars).length = 2 * l.length := by
  induction l with
  | nil => rfl
  | cons a t ih => simp [byteHexChars, ih]; omega

theorem digestBytes_length (s : Sha8) : (digestBytes s).length = 32 := by
  simp [digestBytes, wordBytes]

theorem sha256_length (msg : List Nat) : (sha256 msg).length = 32 :=
  digestBytes_length _

/-- A SHA-256 hex digest always has exactly 64 characters. -/
theorem sha256hex_data_length (msg : List Nat) : (sha256hex msg).data.length = 64 := by
  show ((sha256 msg).flatMap byteHexChars).length = 64
  rw [length_flatMap_byteHexChars, sha256_length]

/-- `prepare_hash_data` does not read the stored `hash` field. -/
theorem prepare_hash_data_set_hash (b : Block) (s : String) :
    Block.prepare_hash_data { b with hash := s } = Block.prepare_hash_data b := rfl

/-- Everything `mineLoop` guarantees on success: all fields except `hash` and
`nonce` are unchanged, the committed hash hits the target prefix, and it is
the digest of the block's own serialized contents (with the committed nonce). -/
theorem mineLoop_spec : ∀ (fuel : Nat) (zeros : List Char) (b b' : Block),
    mineLoop zeros b fuel = some b' →
    b'.index = b.index ∧ b'.timestamp = b.timestamp ∧
    b'.transactions = b.transactions ∧ b'.previous_hash = b.previous_hash ∧
    b'.difficulty = b.difficulty ∧ b.nonce ≤ b'.nonce ∧
    zeros.isPrefixOf b'.hash.data = true ∧
    b'.hash = sha256hex b'.prepare_hash_data := by
  intro fuel
  induction fuel with
  | zero => intro zeros b b' h; simp [mineLoop] at h
  | succ n ih =>
    intro zeros b b' h
    simp only [mineLoop] at h
    split at h
    · next hc =>
      cases h
      exact ⟨rfl, rfl, rfl, rfl, rfl, Nat.le_refl _, hc, rfl⟩
    · next hc =>
      have hs := ih zeros _ b' h
      simp only at hs
      exact ⟨hs.1, hs.2.1, hs.2.2.1, hs.2.2.2.1, hs.2.2.2.2.1,
        Nat.le_trans (Nat.le_succ _) hs.2.2.2.2.2.1, hs.2.2.2.2.2.2⟩

/-- `Block::mine` on success: committed hash meets the difficulty target, is
the hash of the committed contents, and only `hash`/`nonce` changed. -/
theorem mine_spec (fuel : Nat) (b b' : Block) (h : Block.mine fuel b = some b') :
    b'.index = b.index ∧ b'.timestamp = b.timestamp ∧
    b'.transactions = b.transactions ∧ b'.previous_hash = b.previous_hash ∧
    b'.difficulty = b.difficulty ∧ b.nonce ≤ b'.nonce ∧
    (List.replicate b.difficulty '0').isPrefixOf b'.hash.data = true ∧
    b'.hash = sha256hex b'.prepare_hash_data :=
  mineLoop_spec fuel _ b b' h

/-- With a target longer than 64 characters the proof-of-work test can never
succeed, so the loop never exits, whatever the fuel. -/
theorem mineLoop_none_of_long (zeros : List Char) (hl : 64 < zeros.length) :
    ∀ (fuel : Nat) (b : Block), mineLoop zeros b fuel = none := by
  intro fuel
  induction fuel with
  | zero => intro b; rfl
  | succ n ih =>
    intro b
    have hc : zeros.isPrefixOf (sha256hex b.prepare_hash_data).data = false := by
      apply Bool.eq_false_iff.mpr
      intro habs
      have hp := List.isPrefixOf_iff_prefix.mp habs
      have := hp.length_le
      rw [sha256hex_data_length] at this
      omega
    simp only [mineLoop, hc]
    simp [ih]

/-- For difficulty at least 65, `Block::mine` never terminates. -/
theorem mine_none_of_ge65 (b : Block) (hd : 65 ≤ b.difficulty) (fuel : Nat) :
    Block.mine fuel b = none := by
  apply mineLoop_none_of_long
  · rw [List.length_replicate]; omega

/-- A coinbase transaction (no source, no signature) is valid under any
verifier. -/
theorem is_valid_coinbase (verify : Verify) (d : PublicKey) (a : Nat) :
    (Transaction.new_coinbase d a).is_valid verify = true := rfl

/-- The validity loop body, characterized by the adjacent-pair property over
positions of the chain `p :: l`. -/
theorem chainCheckFrom_iff (verify : Verify) : ∀ (l : List Block) (p : Block),
    chainCheckFrom verify p l = true ↔
      ∀ i b b', (p :: l)[i]? = some b → (p :: l)[i + 1]? = some b' →
        b'.previous_hash = b.hash ∧ ∀ tx ∈ b'.transactions, tx.is_valid verify = true := by
  intro l
  induction l with
  | nil =>
    intro p
    constructor
    · intro _ i b b' h1 h2
      rcases i with _ | i <;> simp at h2
    · intro _; rfl
  | cons c rest ih =>
    intro p
    rw [chainCheckFrom]
    simp only [Bool.and_eq_true, beq_iff_eq, List.all_eq_true]
    constructor
    · intro h i b b' h1 h2
      rcases i with _ | i
      · simp only [List.getElem?_cons_zero, Option.some.injEq] at h1
        have h2' : (c :: rest)[0]? = some b' := by simpa using h2
        simp only [List.getElem?_cons_zero, Option.some.injEq] at h2'
        subst h1; subst h2'
        exact ⟨h.1.1, h.1.2⟩
      · exact (ih c).mp h.2 i b b' (by simpa using h1) (by simpa using h2)
    · intro h
      refine ⟨⟨(h 0 p c (by simp) (by simp)).1, (h 0 p c (by simp) (by simp)).2⟩, ?_⟩
      exact (ih c).mpr (fun i b b' h1 h2 => h (i + 1) b b' (by simpa using h1) (by simpa using h2))

/-- `is_chain_valid` holds exactly when every adjacent pair of blocks is
hash-linked and every transaction of every non-genesis block is valid. -/
theorem is_chain_valid_characterization (verify : Verify) (bc : Blockchain) :
    bc.is_chain_valid verify = true ↔
      ∀ i b b', bc.chain[i]? = some b → bc.chain[i + 1]? = some b' →
        b'.previous_hash = b.hash ∧ ∀ tx ∈ b'.transactions, tx.is_valid verify = true := by
  obtain ⟨chain, mp, d⟩ := bc
  cases chain with
  | nil => simp [Blockchain.is_chain_valid]
  | cons g rest => simpa [Blockchain.is_chain_valid] using chainCheckFrom_iff verify rest g

/-- The inductive invariant of reachable states: the chain validates, every
pooled transaction validates, the chain is nonempty, and each block's stored
`index` equals its position in the chain. -/
def ChainInv (verify : Verify) (bc : Blockchain) : Prop :=
  bc.is_chain_valid verify = true ∧
  (∀ tx ∈ bc.mempool, tx.is_valid verify = true) ∧
  bc.chain ≠ [] ∧
  (∀ (i : Nat) (b : Block), bc.chain[i]? = some b → b.index = i)

theorem reachable_inv (verify : Verify) (bc : Blockchain) (h : Reachable verify bc) :
    ChainInv verify bc := by
  induction h with
  | base fuel now bc hnew =>
    unfold Blockchain.new at hnew
    cases hm : Block.mine fuel (Block.new 0 [] "0" 2 now) with
    | none => rw [hm] at hnew; simp at hnew
    | some g =>
      rw [hm] at hnew
      simp only [Option.map_some', Option.some.injEq] at hnew
      subst hnew
      obtain ⟨hgi, -, -, -, -, -, -, -⟩ := mine_spec _ _ _ hm
      refine ⟨rfl, by simp, by simp, ?_⟩
      intro i b hib
      rcases i with _ | i
      · simp only [List.getElem?_cons_zero, Option.some.injEq] at hib
        subst hib
        exact hgi
      · simp at hib
  | add bc tx bc' hr hadd ih =>
    unfold Blockchain.add_transaction at hadd
    split at hadd
    · next hval =>
      simp only [Option.some.injEq] at hadd
      subst hadd
      obtain ⟨hv, hmp, hne, hidx⟩ := ih
      refine ⟨hv, ?_, hne, hidx⟩
      intro t ht
      rcases List.mem_append.mp ht with hold | hnew2
      · exact hmp t hold
      · rw [List.mem_singleton.mp hnew2]; exact hval
    · exact absurd hadd (by simp)
  | mine bc fuel now m bc' hr hmine ih =>
    obtain ⟨hv, hmp, hne, hidx⟩ := ih
    unfold Blockchain.mine_pending_transactions at hmine
    cases had : bc.adjust_difficulty with
    | none => rw [had] at hmine; exact absurd hmine (by simp)
    | some d =>
      rw [had] at hmine
      cases hlast : bc.chain.getLast? with
      | none => rw [hlast] at hmine; exact absurd hmine (by simp)
      | some last =>
        rw [hlast] at hmine
        dsimp only at hmine
        cases hm : Block.mine fuel (Block.new bc.chain.length
            (Transaction.new_coinbase m MINING_REWARD :: bc.mempool) last.hash d now) with
        | none => rw [hm] at hmine; exact absurd hmine (by simp)
        | some mined =>
          rw [hm] at hmine
          simp only [MineResult.ok.injEq] at hmine
          subst hmine
          obtain ⟨hi, -, htx, hph, -, -, -, -⟩ := mine_spec _ _ _ hm
          simp only [Block.new] at hi htx hph
          refine ⟨?_, by simp, by simp, ?_⟩
          · rw [is_chain_valid_characterization]
            intro i b b' h1 h2
            simp only at h1 h2
            by_cases hi2 : i + 1 < bc.chain.length
            · rw [List.getElem?_append_left (by omega)] at h1
              rw [List.getElem?_append_left hi2] at h2
              exact (is_chain_valid_characterization verify bc).mp hv i b b' h1 h2
            · by_cases hieq : i + 1 = bc.chain.length
              · have hb' : b' = mined := by
                  rw [List.getElem?_append_right (by omega)] at h2
                  rw [hieq, Nat.sub_self] at h2
                  simp only [List.getElem?_cons_zero, Option.some.injEq] at h2
                  exact h2.symm
                have hb : b = last := by
                  rw [List.getElem?_append_left (by omega)] at h1
                  have h3 := List.getLast?_eq_getElem? bc.chain
                  rw [hlast] at h3
                  have hi1 : i = bc.chain.length - 1 := by omega
                  rw [hi1] at h1
                  rw [← h3] at h1
                  exact (Option.some.injEq _ _).mp h1.symm
                subst hb'; subst hb
                constructor
                · rw [hph]
                · rw [htx]
                  intro tx htxm
                  rcases List.mem_cons.mp htxm with hc | hrest
                  · rw [hc]; exact is_valid_coinbase verify m MINING_REWARD
                  · exact hmp tx hrest
              · rw [List.getElem?_append_right (by omega)] at h2
                rcases hk : i + 1 - bc.chain.length with _ | k
                · omega
                · rw [hk] at h2; simp at h2
          · intro i b hib
            simp only at hib
            by_cases hlt : i < bc.chain.length
            · rw [List.getElem?_append_left hlt] at hib
              exact hidx i b hib
            · rw [List.getElem?_append_right (by omega)] at hib
              rcases hk : i - bc.chain.length with _ | k
              · rw [hk] at hib
                simp only [List.getElem?_cons_zero, Option.some.injEq] at hib
                subst hib
                rw [hi]
                omega
              · rw [hk] at hib; simp at hib

/-- On a nonempty, position-indexed chain, `adjust_difficulty` cannot panic. -/
theorem adjust_isSome (bc : Blockchain) (hne : bc.chain ≠ [])
    (hidx : ∀ (i : Nat) (b : Block), bc.chain[i]? = some b → b.index = i) :
    ∃ d, bc.adjust_difficulty = some d := by
  unfold Blockchain.adjust_difficulty
  cases hlast : bc.chain.getLast? with
  | none => exact absurd (List.getLast?_eq_none_iff.mp hlast) hne
  | some latest =>
    dsimp only
    by_cases hcond : 0 < latest.index ∧ latest.index % DIFFICULTY_ADJUSTMENT_INTERVAL = 0
    · rw [if_pos hcond]
      have hlen : 0 < bc.chain.length := List.length_pos.mpr hne
      have hlatest_idx : latest.index = bc.chain.length - 1 := by
        have h3 := List.getLast?_eq_getElem? bc.chain
        rw [hlast] at h3
        exact hidx _ _ h3.symm
      have hacc_lt : latest.index - DIFFICULTY_ADJUSTMENT_INTERVAL < bc.chain.length := by
        unfold DIFFICULTY_ADJUSTMENT_INTERVAL
        omega
      cases hacc : bc.chain[latest.index - DIFFICULTY_ADJUSTMENT_INTERVAL]? with
      | none =>
        rw [List.getElem?_eq_none_iff] at hacc
        omega
      | some sb =>
        dsimp only
        split_ifs <;> exact ⟨_, rfl⟩
    · rw [if_neg hcond]
      exact ⟨_, rfl⟩

/-! ## Definitions used to state the balance claim -/

/-- One transaction's effect on the balance with exact (unbounded) integer
arithmetic, in the claim's sense: `+amount` on a destination match, then
`-amount` on a source match. -/
def specStep (address : PublicKey) (balance : Int) (tx : Transaction) : Int :=
  let b1 := if tx.destination = address then balance + (tx.amount : Int) else balance
  if tx.source = some address then b1 - (tx.amount : Int) else b1

/-- All transactions of all blocks, in chain order. -/
def allTxs (bc : Blockchain) : List Transaction :=
  bc.chain.flatMap (fun b => b.transactions)

/-- Follows the claim's words: "the signed sum, over every transaction of
every block in chain order, of +amount for each transaction whose
destination equals the address and -amount for each transaction whose source
equals Some(address)" — exact integer arithmetic, for comparison with the
implementation's `i64` arithmetic. -/
def signedSum (bc : Blockchain) (address : PublicKey) : Int :=
  (allTxs bc).foldl (specStep address) 0

def inI64 (z : Int) : Bool :=
  decide (-9223372036854775808 ≤ z ∧ z < 9223372036854775808)

/-- Every intermediate value of the balance replay (at each point where the
code performs an `i64` addition or subtraction) stays in `i64` range. -/
def replayOk (address : PublicKey) : Int → List Transaction → Bool
  | _, [] => true
  | b, tx :: rest =>
    (if tx.destination = address then inI64 (b + (tx.amount : Int)) else true) &&
    ((if tx.source = some address then
        inI64 ((if tx.destination = address then b + (tx.amount : Int) else b) -
          (tx.amount : Int))
      else true) &&
      replayOk address (specStep address b tx) rest)

/-- Every amount on the chain fits in `i64` (is below `2^63`). -/
def amountsOk (bc : Blockchain) : Bool :=
  bc.chain.all (fun b => b.transactions.all
    (fun tx => decide (tx.amount < 9223372036854775808)))

theorem wrap64_id (z : Int) (h : inI64 z = true) : wrap64 z = z := by
  unfold inI64 at h
  rw [decide_eq_true_eq] at h
  unfold wrap64
  rw [Int.emod_eq_of_lt (by omega) (by omega)]
  omega

theorem u64AsI64_of_lt (a : Nat) (h : a < 9223372036854775808) : u64AsI64 a = (a : Int) := by
  unfold u64AsI64
  split <;> omega

theorem balStep_eq_specStep (address : PublicKey) (b : Int) (tx : Transaction)
    (ha : tx.amount < 9223372036854775808)
    (hd : tx.destination = address → inI64 (b + (tx.amount : Int)) = true)
    (hs : tx.source = some address →
      inI64 ((if tx.destination = address then b + (tx.amount : Int) else b) -
        (tx.amount : Int)) = true)
    (_hb : inI64 b = true) :
    balStep address b tx = specStep address b tx := by
  unfold balStep specStep
  rw [u64AsI64_of_lt _ ha]
  by_cases h1 : tx.destination = address
  · rw [if_pos h1, if_pos h1, wrap64_id _ (hd h1)]
    by_cases h2 : tx.source = some address
    · rw [if_pos h2, if_pos h2, wrap64_id]
      have h3 := hs h2
      rw [if_pos h1] at h3
      exact h3
    · rw [if_neg h2, if_neg h2]
  · rw [if_neg h1, if_neg h1]
    by_cases h2 : tx.source = some address
    · rw [if_pos h2, if_pos h2, wrap64_id]
      have h3 := hs h2
      rw [if_neg h1] at h3
      exact h3
    · rw [if_neg h2, if_neg h2]

theorem specStep_inI64 (address : PublicKey) (b : Int) (tx : Transaction)
    (hb : inI64 b = true)
    (hd : tx.destination = address → inI64 (b + (tx.amount : Int)) = true)
    (hs : tx.source = some address →
      inI64 ((if tx.destination = address then b + (tx.amount : Int) else b) -
        (tx.amount : Int)) = true) :
    inI64 (specStep address b tx) = true := by
  unfold specStep
  by_cases h2 : tx.source = some address
  · rw [if_pos h2]
    exact hs h2
  · rw [if_neg h2]
    by_cases h1 : tx.destination = address
    · rw [if_pos h1]
      exact hd h1
    · rw [if_neg h1]
      exact hb

theorem foldl_balStep_eq (address : PublicKey) : ∀ (l : List Transaction) (b : Int),
    (∀ tx ∈ l, tx.amount < 9223372036854775808) → inI64 b = true →
    replayOk address b l = true →
    l.foldl (balStep address) b = l.foldl (specStep address) b := by
  intro l
  induction l with
  | nil => intros; rfl
  | cons tx rest ih =>
    intro b hamt hb hr
    unfold replayOk at hr
    simp only [Bool.and_eq_true] at hr
    obtain ⟨h1, h2, h3⟩ := hr
    have hd : tx.destination = address → inI64 (b + (tx.amount : Int)) = true := by
      intro hdd; rwa [if_pos hdd] at h1
    have hs : tx.source = some address →
        inI64 ((if tx.destination = address then b + (tx.amount : Int) else b) -
          (tx.amount : Int)) = true := by
      intro hss; rwa [if_pos hss] at h2
    rw [List.foldl_cons, List.foldl_cons,
      balStep_eq_specStep address b tx (hamt tx (by simp)) hd hs hb]
    exact ih (specStep address b tx) (fun t ht => hamt t (by simp [ht]))
      (specStep_inI64 address b tx hb hd hs) h3

theorem get_balance_eq_flat (bc : Blockchain) (address : PublicKey) :
    bc.get_balance address = (allTxs bc).foldl (balStep address) 0 := by
  unfold Blockchain.get_balance allTxs
  have key : ∀ (l : List Block) (init : Int),
      l.foldl (fun b blk => blk.transactions.foldl (balStep address) b) init =
        (l.flatMap (fun b => b.transactions)).foldl (balStep address) init := by
    intro l
    induction l with
    | nil => intro init; rfl
    | cons blk rest ih =>
      intro init
      rw [List.foldl_cons, List.flatMap_cons, List.foldl_append]
      exact ih _
  exact key bc.chain 0

/-! ## The tampering operation for the linkage claim -/

/-- Replace the stored `previous_hash` of the block at position `i`. -/
def tamperPrev : Nat → String → List Block → List Block
  | _, _, [] => []
  | 0, v, b :: rest => { b with previous_hash := v } :: rest
  | j + 1, v, b :: rest => b :: tamperPrev j v rest

theorem tamperPrev_getElem? (v : String) : ∀ (l : List Block) (i j : Nat),
    (tamperPrev i v l)[j]? =
      if i = j then (l[j]?).map (fun b => { b with previous_hash := v }) else l[j]? := by
  intro l
  induction l with
  | nil => intro i j; simp [tamperPrev]
  | cons b rest ih =>
    intro i j
    rcases i with _ | i
    · rcases j with _ | j
      · simp [tamperPrev]
      · simp [tamperPrev]
    · rcases j with _ | j
      · simp [tamperPrev]
      · simp only [tamperPrev, List.getElem?_cons_succ, ih i j]
        by_cases hij : i = j
        · rw [if_pos hij, if_pos (by omega)]
        · rw [if_neg hij, if_neg (by omega)]

/-! ## Concrete states used by the witnesses -/

set_option maxRecDepth 1000000

/-- A verifier that accepts everything (a legitimate instantiation of the
abstract `p256` verification parameter for witnesses). -/
def verifyTrue : Verify := fun _ _ _ => true

/-- The genesis block actually produced by `Blockchain.new 1 69` (timestamp
69 happens to make nonce 0 meet difficulty 2). -/
def genesisW : Block :=
  { index := 0, timestamp := 69, transactions := [], previous_hash := "0",
    hash := "00abe1c2c7e6c85f86d51ee69bf60a7730b649abd6d7ca5d084b2288874d12ef",
    nonce := 0, difficulty := 2 }

def bc0W : Blockchain := { chain := [genesisW], mempool := [], difficulty := 2 }

/-- The block produced by mining on `bc0W` with miner `"A"` at time 37. -/
def block1W : Block :=
  { index := 1, timestamp := 37,
    transactions := [{ source := none, destination := "A", amount := 100, signature := none }],
    previous_hash := "00abe1c2c7e6c85f86d51ee69bf60a7730b649abd6d7ca5d084b2288874d12ef",
    hash := "00ad6bbd7ff80a4a344138e1a95b2cca200a6539fc67ab07c482037986d764fd",
    nonce := 0, difficulty := 2 }

def bc1W : Blockchain := { chain := [genesisW, block1W], mempool := [], difficulty := 2 }

def gW : Block :=
  { index := 0, timestamp := 0, transactions := [], previous_hash := "0",
    hash := "gh", nonce := 0, difficulty := 2 }

def txW : Transaction := { source := some "A", destination := "B", amount := 5, signature := some "s" }

/-- A difficulty-0 state with one pooled transaction. -/
def bcPreW : Blockchain := { chain := [gW], mempool := [txW], difficulty := 0 }

def minedW : Block :=
  { index := 1, timestamp := 0,
    transactions := [{ source := none, destination := "M", amount := 100, signature := none }, txW],
    previous_hash := "gh",
    hash := "b0833da37a07850a96944fce52e10013981ec9154f862472a953d0e068eb3fb4",
    nonce := 0, difficulty := 0 }

def bcPostW : Blockchain := { chain := [gW, minedW], mempool := [], difficulty := 0 }

def b65blk : Block :=
  { index := 0, timestamp := 0, transactions := [], previous_hash := "0",
    hash := "aa", nonce := 0, difficulty := 2 }

/-- A state whose difficulty 65 exceeds the 64 hex characters of any SHA-256
digest, so its proof-of-work search can never succeed. -/
def bc65 : Blockchain := { chain := [b65blk], mempool := [], difficulty := 65 }

/-! ## Claim C1 -/

/-- Claim C1 (amended): whenever a `mine_pending_transactions` call
terminates — equivalently, whenever the proof-of-work search for the new
block succeeds — it returns success, and afterwards the pool is empty, the
chain is exactly one block longer (the old blocks untouched), the new
block's index equals the pre-call chain length, its `previous_hash` is the
hash of the block that was last before the call, and its transaction list is
the coinbase reward (destination = miner, amount = 100, no source, no
signature) followed by the pre-call pool in submission order; all of this
also holds when the pool was empty.  (The unamended claim asserts the call
always returns, which fails at difficulty ≥ 65: see the counterexample.) -/
theorem C1_mine_pending_postconditions (fuel : Nat) (now : Int) (bc : Blockchain)
    (m : PublicKey) (bc' : Blockchain)
    (h : Blockchain.mine_pending_transactions fuel now bc m = MineResult.ok bc') :
    bc'.mempool = [] ∧
    bc'.chain.length = bc.chain.length + 1 ∧
    ∃ mined : Block,
      bc'.chain = bc.chain ++ [mined] ∧
      mined.index = bc.chain.length ∧
      mined.transactions =
        { source := none, destination := m, amount := 100, signature := none } :: bc.mempool ∧
      ∀ last : Block, bc.chain.getLast? = some last → mined.previous_hash = last.hash := by
  unfold Blockchain.mine_pending_transactions at h
  cases had : bc.adjust_difficulty with
  | none => rw [had] at h; exact absurd h (by simp)
  | some d =>
    rw [had] at h
    cases hlast : bc.chain.getLast? with
    | none => rw [hlast] at h; exact absurd h (by simp)
    | some last =>
      rw [hlast] at h
      dsimp only at h
      cases hm : Block.mine fuel (Block.new bc.chain.length
          (Transaction.new_coinbase m MINING_REWARD :: bc.mempool) last.hash d now) with
      | none => rw [hm] at h; exact absurd h (by simp)
      | some mined =>
        rw [hm] at h
        simp only [MineResult.ok.injEq] at h
        subst h
        obtain ⟨hi, -, htx, hph, -, -, -, -⟩ := mine_spec _ _ _ hm
        simp only [Block.new] at hi htx hph
        refine ⟨rfl, by simp, mined, rfl, hi, ?_, ?_⟩
        · rw [htx]; rfl
        · intro last0 hlast0
          have heq : last = last0 := (Option.some.injEq _ _).mp hlast0
          rw [← heq]
          exact hph

/-- Claim C1 witness: a concrete successful call and its postconditions. -/
theorem C1_witness :
    Blockchain.mine_pending_transactions 1 0 bcPreW "M" = MineResult.ok bcPostW ∧
    bcPostW.mempool = [] ∧
    bcPostW.chain.length = bcPreW.chain.length + 1 ∧
    bcPostW.chain = bcPreW.chain ++ [minedW] ∧
    minedW.transactions =
      { source := none, destination := "M", amount := 100, signature := none } :: bcPreW.mempool ∧
    minedW.previous_hash = gW.hash := by
  have hmine : Blockchain.mine_pending_transactions 1 0 bcPreW "M" = MineResult.ok bcPostW := by
    decide
  have hc := C1_mine_pending_postconditions 1 0 bcPreW "M" bcPostW hmine
  exact ⟨hmine, hc.1, hc.2.1, by decide, by decide, by decide⟩

/-- Claim C1 counterexample: at the state `bc65` (difficulty 65) the call
never returns success, however long the search runs — a SHA-256 hex digest
has only 64 characters, so a 65-zero prefix is impossible and the
proof-of-work loop never exits.  This refutes the claim as stated ("for
every Blockchain state ... returns success"). -/
theorem C1_counterexample :
    ¬ ∃ (fuel : Nat) (now : Int) (bc' : Blockchain),
        Blockchain.mine_pending_transactions fuel now bc65 "A" = MineResult.ok bc' := by
  rintro ⟨fuel, now, bc', h⟩
  unfold Blockchain.mine_pending_transactions at h
  have had : bc65.adjust_difficulty = some 65 := by decide
  rw [had] at h
  dsimp only at h
  have hlast : bc65.chain.getLast? = some b65blk := by decide
  rw [hlast] at h
  dsimp only at h
  rw [mine_none_of_ge65 _ (Nat.le_refl 65) fuel] at h
  exact absurd h (by simp)

/-! ## Claim C2 -/

/-- Claim C2 (amended): difficulty adjustment during
`mine_pending_transactions` is evaluated on the pre-call chain, changes the
difficulty only when the pre-call latest block's index is a positive
multiple of 10, and in that case the decision is taken on the *wrapping
`i64` difference* of the two timestamps (the code's
`latest.timestamp - interval_start.timestamp` on `i64`, wrapping in a
release build): with `expected = 300`, increment by 1 when that wrapped
difference is below 150, decrement by 1 when it exceeds 600 and the
difficulty exceeds 1, unchanged otherwise; whenever the true difference
fits in `i64` — in particular in every run whose timestamps come from
`Utc::now` — the wrapped difference equals the true difference, so the
claim's thresholds apply to the true elapsed time; the new block is mined
at the adjusted difficulty.  (The unamended claim reads the thresholds over
the exact difference, which the code's wrapping subtraction violates at
extreme deserializable timestamps: see the counterexample.) -/
theorem C2_adjust_difficulty (fuel : Nat) (now : Int) (bc : Blockchain) (m : PublicKey)
    (bc' : Blockchain) (latest : Block)
    (hl : bc.chain.getLast? = some latest)
    (h : Blockchain.mine_pending_transactions fuel now bc m = MineResult.ok bc') :
    ((¬ (0 < latest.index ∧ latest.index % 10 = 0)) → bc'.difficulty = bc.difficulty) ∧
    (∀ intervalStart : Block, (0 < latest.index ∧ latest.index % 10 = 0) →
      bc.chain[latest.index - 10]? = some intervalStart →
      ((wrap64 (latest.timestamp - intervalStart.timestamp) < 150 →
          bc'.difficulty = bc.difficulty + 1) ∧
       (600 < wrap64 (latest.timestamp - intervalStart.timestamp) ∧ 1 < bc.difficulty →
          bc'.difficulty = bc.difficulty - 1) ∧
       (¬ (wrap64 (latest.timestamp - intervalStart.timestamp) < 150) →
        ¬ (600 < wrap64 (latest.timestamp - intervalStart.timestamp) ∧ 1 < bc.difficulty) →
          bc'.difficulty = bc.difficulty) ∧
       (inI64 (latest.timestamp - intervalStart.timestamp) = true →
          wrap64 (latest.timestamp - intervalStart.timestamp) =
            latest.timestamp - intervalStart.timestamp))) ∧
    (∀ mined : Block, bc'.chain.getLast? = some mined → mined.difficulty = bc'.difficulty) := by
  unfold Blockchain.mine_pending_transactions at h
  cases had : bc.adjust_difficulty with
  | none => rw [had] at h; exact absurd h (by simp)
  | some d =>
    rw [had] at h
    rw [hl] at h
    dsimp only at h
    cases hm : Block.mine fuel (Block.new bc.chain.length
        (Transaction.new_coinbase m MINING_REWARD :: bc.mempool) latest.hash d now) with
    | none => rw [hm] at h; exact absurd h (by simp)
    | some mined =>
      rw [hm] at h
      simp only [MineResult.ok.injEq] at h
      subst h
      obtain ⟨-, -, -, -, hdiff, -, -, -⟩ := mine_spec _ _ _ hm
      simp only [Block.new] at hdiff
      unfold Blockchain.adjust_difficulty at had
      rw [hl] at had
      dsimp only at had
      simp only [DIFFICULTY_ADJUSTMENT_INTERVAL, TARGET_BLOCK_TIME_SECS] at had
      refine ⟨?_, ?_, ?_⟩
      · intro hneg
        rw [if_neg hneg] at had
        exact ((Option.some.injEq _ _).mp had).symm
      · intro intervalStart htrig hstart
        rw [if_pos htrig] at had
        rw [hstart] at had
        dsimp only at had
        norm_num at had
        refine ⟨?_, ?_, ?_, ?_⟩
        · intro h150
          rw [if_pos h150] at had
          exact ((Option.some.injEq _ _).mp had).symm
        · intro hslow
          have hn150 : ¬ (wrap64 (latest.timestamp - intervalStart.timestamp) < 150) := by
            omega
          rw [if_neg hn150, if_pos hslow] at had
          exact ((Option.some.injEq _ _).mp had).symm
        · intro hn1 hn2
          rw [if_neg hn1, if_neg hn2] at had
          exact ((Option.some.injEq _ _).mp had).symm
        · intro hin
          exact wrap64_id _ hin
      · intro mined0 hm0
        have hcat : (bc.chain ++ [mined]).getLast? = some mined := List.getLast?_concat _
        have heq : mined = mined0 := (Option.some.injEq _ _).mp (hcat.symm.trans hm0)
        rw [← heq]
        exact hdiff

def bAdj (i : Nat) : Block :=
  { index := i, timestamp := 0, transactions := [], previous_hash := "p",
    hash := "q", nonce := 0, difficulty := 0 }

/-- An 11-block chain whose latest index, 10, triggers adjustment. -/
def bcC2W : Blockchain :=
  { chain := [bAdj 0, bAdj 1, bAdj 2, bAdj 3, bAdj 4, bAdj 5, bAdj 6, bAdj 7,
      bAdj 8, bAdj 9, bAdj 10],
    mempool := [], difficulty := 0 }

def minedC2W : Block :=
  { index := 11, timestamp := 7,
    transactions := [{ source := none, destination := "M", amount := 100, signature := none }],
    previous_hash := "q",
    hash := "01b20035a347630c53e0b80c3360fdffd5db3fbe66f0ead708fbc884ac2490c5",
    nonce := 0, difficulty := 1 }

def bcC2Wpost : Blockchain :=
  { chain := [bAdj 0, bAdj 1, bAdj 2, bAdj 3, bAdj 4, bAdj 5, bAdj 6, bAdj 7,
      bAdj 8, bAdj 9, bAdj 10, minedC2W],
    mempool := [], difficulty := 1 }

/-- Claim C2 witness: a concrete mining call on an 11-block chain that
triggers the elapsed-too-fast branch and raises difficulty from 0 to 1, the
new block being mined at difficulty 1. -/
theorem C2_witness :
    bcC2W.chain.getLast? = some (bAdj 10) ∧
    Blockchain.mine_pending_transactions 1 7 bcC2W "M" = MineResult.ok bcC2Wpost ∧
    (0 < (bAdj 10).index ∧ (bAdj 10).index % 10 = 0) ∧
    bcC2W.chain[(bAdj 10).index - 10]? = some (bAdj 0) ∧
    wrap64 ((bAdj 10).timestamp - (bAdj 0).timestamp) < 150 ∧
    bcC2Wpost.difficulty = bcC2W.difficulty + 1 := by
  have h1 : bcC2W.chain.getLast? = some (bAdj 10) := by decide
  have h2 : Blockchain.mine_pending_transactions 1 7 bcC2W "M" = MineResult.ok bcC2Wpost := by
    decide
  have hc := C2_adjust_difficulty 1 7 bcC2W "M" bcC2Wpost (bAdj 10) h1 h2
  exact ⟨h1, h2, by decide, by decide, by decide,
    (hc.2.1 (bAdj 0) (by decide) (by decide)).1 (by decide)⟩


def bOvStart : Block :=
  { index := 0, timestamp := -2, transactions := [], previous_hash := "p",
    hash := "q", nonce := 0, difficulty := 0 }

def bOvMid (i : Nat) : Block :=
  { index := i, timestamp := 0, transactions := [], previous_hash := "p",
    hash := "q", nonce := 0, difficulty := 0 }

def bOvLatest : Block :=
  { index := 10, timestamp := 9223372036854775807, transactions := [],
    previous_hash := "p", hash := "q", nonce := 0, difficulty := 0 }

/-- A deserializable state whose interval endpoints are `i64::MAX` and `-2`:
the true elapsed time is `2^63 + 1`, which overflows the `i64`
subtraction. -/
def bcOvW : Blockchain :=
  { chain := [bOvStart, bOvMid 1, bOvMid 2, bOvMid 3, bOvMid 4, bOvMid 5,
      bOvMid 6, bOvMid 7, bOvMid 8, bOvMid 9, bOvLatest],
    mempool := [], difficulty := 5 }

/-- Claim C2 counterexample: at `bcOvW` the true elapsed time between the
latest block and the block ten positions earlier is `2^63 + 1 > 600` and the
difficulty is `5 > 1`, so the claim as stated mandates a decrement to 4 —
but the release binary's wrapping `i64` subtraction yields `-2^63 + 1 < 150`
and the code *increments* the difficulty to 6 (a debug build panics on the
overflow instead; in neither profile does the claimed decrement happen). -/
theorem C2_counterexample :
    bcOvW.chain.getLast? = some bOvLatest ∧
    (0 < bOvLatest.index ∧ bOvLatest.index % 10 = 0) ∧
    bcOvW.chain[bOvLatest.index - 10]? = some bOvStart ∧
    600 < bOvLatest.timestamp - bOvStart.timestamp ∧
    1 < bcOvW.difficulty ∧
    Blockchain.adjust_difficulty bcOvW = some (bcOvW.difficulty + 1) := by
  exact ⟨by decide, by decide, by decide, by decide, by decide, by decide⟩

/-! ## Claim C3 -/

/-- Claim C3: `is_chain_valid` returns `true` exactly when, for every
position `i ≥ 1`, block `i`'s stored `previous_hash` equals block `i-1`'s
stored hash and all of block `i`'s transactions are valid.  Since the
right-hand side mentions neither a recomputation of any block's own hash nor
the genesis block's transactions, the function re-verifies no proof-of-work
and never inspects the genesis transactions. -/
theorem C3_is_chain_valid_iff (verify : Verify) (bc : Blockchain) :
    bc.is_chain_valid verify = true ↔
      ∀ (i : Nat) (b b' : Block), bc.chain[i]? = some b → bc.chain[i + 1]? = some b' →
        b'.previous_hash = b.hash ∧ ∀ tx ∈ b'.transactions, tx.is_valid verify = true :=
  is_chain_valid_characterization verify bc

/-! ## Claim C4 -/

/-- Claim C4: every state reachable from `Blockchain::new` through
`add_transaction` and `mine_pending_transactions` satisfies
`is_chain_valid`; and replacing any stored `previous_hash` at a position
`i ≥ 1` with a value different from the predecessor's hash makes
`is_chain_valid` return `false`. -/
theorem C4_reachable_valid_tamper_invalid (verify : Verify) (bc : Blockchain)
    (h : Reachable verify bc) :
    bc.is_chain_valid verify = true ∧
    ∀ (i : Nat) (v : String) (pb : Block), 1 ≤ i → i < bc.chain.length →
      bc.chain[i - 1]? = some pb → v ≠ pb.hash →
      Blockchain.is_chain_valid verify
        { chain := tamperPrev i v bc.chain, mempool := bc.mempool,
          difficulty := bc.difficulty } = false := by
  have hinv := reachable_inv verify bc h
  refine ⟨hinv.1, ?_⟩
  intro i v pb h1 h2 hpb hv
  apply Bool.eq_false_iff.mpr
  intro habs
  have hbi : bc.chain[i]? = some bc.chain[i] := List.getElem?_eq_getElem h2
  have hgetm : (tamperPrev i v bc.chain)[i]? =
      some { bc.chain[i] with previous_hash := v } := by
    rw [tamperPrev_getElem? v bc.chain i i, if_pos rfl, hbi]
    rfl
  have hgetp : (tamperPrev i v bc.chain)[i - 1]? = some pb := by
    rw [tamperPrev_getElem? v bc.chain i (i - 1), if_neg (by omega)]
    exact hpb
  have hi1 : i - 1 + 1 = i := by omega
  have hch := (is_chain_valid_characterization verify _).mp habs (i - 1) pb
    { bc.chain[i] with previous_hash := v }
  simp only at hch
  rw [hi1] at hch
  have := (hch hgetp hgetm).1
  simp only at this
  exact hv this

/-- Claim C4 witness: the concrete reachable two-block chain `bc1W`
(genesis mined by `Blockchain.new 1 69`, then one mining call) validates,
and overwriting block 1's `previous_hash` with `"x"` invalidates it. -/
theorem C4_witness :
    Reachable verifyTrue bc1W ∧
    bc1W.is_chain_valid verifyTrue = true ∧
    bc1W.chain[0]? = some genesisW ∧
    ("x" : String) ≠ genesisW.hash ∧
    Blockchain.is_chain_valid verifyTrue
      { chain := tamperPrev 1 "x" bc1W.chain, mempool := bc1W.mempool,
        difficulty := bc1W.difficulty } = false := by
  have hr : Reachable verifyTrue bc1W :=
    Reachable.mine bc0W 1 37 "A" bc1W (Reachable.base 1 69 bc0W (by decide)) (by decide)
  have hmain := C4_reachable_valid_tamper_invalid verifyTrue bc1W hr
  exact ⟨hr, hmain.1, by decide, by decide,
    hmain.2 1 "x" genesisW (by decide) (by decide) (by decide) (by decide)⟩

/-! ## Claim C5 -/

/-- Claim C5 (amended): `get_balance` equals the claim's signed sum
(`+amount` on destination match, `-amount` on source match, coinbase only
adds) provided every amount is below `2^63` and every intermediate value of
the replay stays within `i64` range — the code first reinterprets each `u64`
amount as an `i64` (`tx.amount as i64`) and accumulates in `i64`, so without
those bounds the two disagree (see the counterexample, where a coinbase of
`2^63` is *subtracted*).  On a freshly created chain the balance of every
address is 0, and in the concrete two-block scenario (block 1 rewards A
with 100; block 2 rewards A with 100 and carries a 40-unit A→B transfer)
A's balance is 160 and B's is 40. -/
theorem C5_get_balance_replay :
    (∀ (bc : Blockchain) (address : PublicKey),
      amountsOk bc = true → replayOk address 0 (allTxs bc) = true →
      bc.get_balance address = signedSum bc address) ∧
    (∀ (fuel : Nat) (now : Int) (bc0 : Blockchain) (address : PublicKey),
      Blockchain.new fuel now = some bc0 → bc0.get_balance address = 0) ∧
    (∀ (A B : PublicKey) (g b1 b2 : Block) (mp : List Transaction) (d : Nat) (sg : Sig),
      A ≠ B → g.transactions = [] →
      b1.transactions = [Transaction.new_coinbase A 100] →
      b2.transactions = [Transaction.new_coinbase A 100,
        { source := some A, destination := B, amount := 40, signature := some sg }] →
      Blockchain.get_balance { chain := [g, b1, b2], mempool := mp, difficulty := d } A = 160 ∧
      Blockchain.get_balance { chain := [g, b1, b2], mempool := mp, difficulty := d } B = 40) := by
  refine ⟨?_, ?_, ?_⟩
  · intro bc address hA hR
    rw [get_balance_eq_flat]
    unfold signedSum
    apply foldl_balStep_eq
    · intro tx htx
      unfold amountsOk at hA
      simp only [List.all_eq_true, decide_eq_true_eq] at hA
      unfold allTxs at htx
      rw [List.mem_flatMap] at htx
      obtain ⟨blk, hblk, htx2⟩ := htx
      exact hA blk hblk tx htx2
    · decide
    · exact hR
  · intro fuel now bc0 address hnew
    unfold Blockchain.new at hnew
    cases hm : Block.mine fuel (Block.new 0 [] "0" 2 now) with
    | none => rw [hm] at hnew; simp at hnew
    | some g =>
      rw [hm] at hnew
      simp only [Option.map_some', Option.some.injEq] at hnew
      subst hnew
      obtain ⟨-, -, htx, -, -, -, -, -⟩ := mine_spec _ _ _ hm
      simp only [Block.new] at htx
      unfold Blockchain.get_balance
      simp [htx]
  · intro A B g b1 b2 mp d sg hAB hg hb1 hb2
    have hBA : B ≠ A := hAB.symm
    unfold Blockchain.get_balance
    simp only [List.foldl_cons, List.foldl_nil, hg, hb1, hb2]
    constructor
    · norm_num [balStep, Transaction.new_coinbase, u64AsI64, wrap64, hBA]
      simp only [show ((none : Option PublicKey) = some A) = False by simp, if_false]
      decide
    · norm_num [balStep, Transaction.new_coinbase, u64AsI64, wrap64, hAB]
      simp only [show ((none : Option PublicKey) = some B) = False by simp, if_false]
      decide

def scenG : Block :=
  { index := 0, timestamp := 0, transactions := [], previous_hash := "0",
    hash := "h0", nonce := 0, difficulty := 2 }

def scenB1 : Block :=
  { index := 1, timestamp := 1, transactions := [Transaction.new_coinbase "A" 100],
    previous_hash := "h0", hash := "h1", nonce := 0, difficulty := 2 }

def scenB2 : Block :=
  { index := 2, timestamp := 2,
    transactions := [Transaction.new_coinbase "A" 100,
      { source := some "A", destination := "B", amount := 40, signature := some "sg" }],
    previous_hash := "h1", hash := "h2", nonce := 0, difficulty := 2 }

/-- Claim C5 witness: concrete instances of all three parts. -/
theorem C5_witness :
    amountsOk bc0W = true ∧
    replayOk "A" 0 (allTxs bc0W) = true ∧
    Blockchain.get_balance bc0W "A" = signedSum bc0W "A" ∧
    Blockchain.new 1 69 = some bc0W ∧
    Blockchain.get_balance bc0W "Z" = 0 ∧
    ("A" : PublicKey) ≠ "B" ∧
    Blockchain.get_balance { chain := [scenG, scenB1, scenB2], mempool := [], difficulty := 2 }
      "A" = 160 ∧
    Blockchain.get_balance { chain := [scenG, scenB1, scenB2], mempool := [], difficulty := 2 }
      "B" = 40 := by
  have hnew : Blockchain.new 1 69 = some bc0W := by decide
  have hscen := C5_get_balance_replay.2.2 "A" "B" scenG scenB1 scenB2 [] 2 "sg"
    (by decide) rfl rfl rfl
  exact ⟨by decide, by decide,
    C5_get_balance_replay.1 bc0W "A" (by decide) (by decide),
    hnew,
    C5_get_balance_replay.2.1 1 69 bc0W "Z" hnew,
    by decide, hscen.1, hscen.2⟩

def bigTx : Transaction :=
  { source := none, destination := "A", amount := 9223372036854775808, signature := none }

def bigBlk : Block :=
  { index := 0, timestamp := 0, transactions := [bigTx], previous_hash := "0",
    hash := "h", nonce := 0, difficulty := 2 }

def bcBigW : Blockchain := { chain := [bigBlk], mempool := [], difficulty := 2 }

/-- Claim C5 counterexample: for a coinbase of amount `2^63` the claim's
signed sum says the balance is `+2^63`, but `get_balance` reinterprets the
amount as a negative `i64` and returns `-2^63` — a coinbase does not "only
ever add". -/
theorem C5_counterexample :
    Blockchain.get_balance bcBigW "A" = -9223372036854775808 ∧
    signedSum bcBigW "A" = 9223372036854775808 := by
  constructor <;> decide

/-! ## Claim C6 -/

/-- Claim C6: `is_valid` is `true` in exactly two cases — source and
signature both present with the signature verifying (under the external
verifier) against the SHA-256 digest of the canonical `(source, destination,
amount)` serialization (that digest is `calculate_hash`), or source and
signature both absent; the two mixed combinations are `false`.  The function
is total (a Lean function), matching "never raises". -/
theorem C6_is_valid_cases (verify : Verify) (tx : Transaction) :
    tx.is_valid verify = true ↔
      ((∃ k s, tx.source = some k ∧ tx.signature = some s ∧
          verify tx.calculate_hash s k = true) ∨
       (tx.source = none ∧ tx.signature = none)) := by
  obtain ⟨src, dst, amt, sig⟩ := tx
  cases src <;> cases sig <;> simp [Transaction.is_valid]

/-! ## Claim C7 -/

/-- Claim C7: for a wallet whose keypair matches (the external library's
guarantee: verification accepts this wallet's signatures under its public
key), `Transaction::new` yields a valid transaction; the digest signed at
construction — computed from `(source, destination, amount)` only — is
identical to the digest recomputed at verification time, because
`calculate_hash` ignores the signature field. -/
theorem C7_sign_then_verify (verify : Verify) (w : Wallet) (destination : PublicKey)
    (amount : Nat)
    (hkey : ∀ digest : List Nat,
      verify digest (w.sign_prehashed digest) w.public_key = true) :
    (Transaction.new w destination amount).is_valid verify = true ∧
    (Transaction.new w destination amount).calculate_hash =
      Transaction.calculate_hash
        { source := some w.public_key, destination := destination,
          amount := amount, signature := none } := by
  constructor
  · show verify (Transaction.new w destination amount).calculate_hash
      (w.sign_prehashed (Transaction.calculate_hash
        { source := some w.public_key, destination := destination,
          amount := amount, signature := none })) w.public_key = true
    exact hkey _
  · rfl

def walletW : Wallet := { public_key := "A", sign_prehashed := fun _ => "sg" }

def verifySigW : Verify := fun _ s k => s == "sg" && k == "A"

/-- Claim C7 witness: a concrete wallet/verifier pair satisfying the
matching-keypair hypothesis, with the signed transaction valid. -/
theorem C7_witness :
    verifySigW [1, 2, 3] (walletW.sign_prehashed [1, 2, 3]) walletW.public_key = true ∧
    (Transaction.new walletW "B" 40).is_valid verifySigW = true ∧
    (Transaction.new walletW "B" 40).calculate_hash =
      Transaction.calculate_hash
        { source := some "A", destination := "B", amount := 40, signature := none } := by
  have hc := C7_sign_then_verify verifySigW walletW "B" 40 (fun _ => rfl)
  exact ⟨rfl, hc.1, hc.2⟩

/-! ## Claim C8 -/

/-- Claim C8 (amended): whenever the proof-of-work search of `Block::mine`
terminates, the stored hash starts with `difficulty` ASCII `'0'` characters
and equals the SHA-256 hex digest of the canonical serialization of
`(index, timestamp, transactions, previous_hash, nonce, difficulty)` with
the nonce committed at termination, and all fields other than `hash` and
`nonce` are unchanged.  (The unamended claim asserts termination for every
difficulty `d ≥ 0`; it fails for `d ≥ 65`, where the 64-character digest can
never carry the required prefix — see the counterexample.) -/
theorem C8_mine_postconditions (fuel : Nat) (b b' : Block)
    (h : Block.mine fuel b = some b') :
    (List.replicate b.difficulty '0').isPrefixOf b'.hash.data = true ∧
    b'.hash = sha256hex b'.prepare_hash_data ∧
    b'.index = b.index ∧ b'.timestamp = b.timestamp ∧
    b'.transactions = b.transactions ∧ b'.previous_hash = b.previous_hash ∧
    b'.difficulty = b.difficulty := by
  obtain ⟨h1, h2, h3, h4, h5, -, h7, h8⟩ := mine_spec fuel b b' h
  exact ⟨h7, h8, h1, h2, h3, h4, h5⟩

def b8W : Block :=
  { index := 3, timestamp := 5, transactions := [], previous_hash := "ph",
    hash := "", nonce := 0, difficulty := 0 }

def b8Wpost : Block :=
  { index := 3, timestamp := 5, transactions := [], previous_hash := "ph",
    hash := "c5b7c0a6febb87575820703deaca2c2ba3ebda23307b2f25019398c38150197e",
    nonce := 0, difficulty := 0 }

/-- Claim C8 witness: a concrete successful mining run and its
postconditions. -/
theorem C8_witness :
    Block.mine 1 b8W = some b8Wpost ∧
    (List.replicate b8W.difficulty '0').isPrefixOf b8Wpost.hash.data = true ∧
    b8Wpost.hash = sha256hex b8Wpost.prepare_hash_data ∧
    b8Wpost.transactions = b8W.transactions ∧
    b8Wpost.difficulty = b8W.difficulty := by
  have hm : Block.mine 1 b8W = some b8Wpost := by decide
  have hc := C8_mine_postconditions 1 b8W b8Wpost hm
  exact ⟨hm, hc.1, hc.2.1, hc.2.2.2.2.1, hc.2.2.2.2.2.2⟩

def b65W : Block :=
  { index := 7, timestamp := 0, transactions := [], previous_hash := "0",
    hash := "", nonce := 0, difficulty := 65 }

/-- Claim C8 counterexample: at difficulty 65 `Block::mine` never terminates
(the claim asserts termination for every `d ≥ 0`): a SHA-256 hex digest has
exactly 64 characters, so no iteration of the loop can ever see a 65-zero
prefix, whatever fuel it is given. -/
theorem C8_counterexample :
    ¬ ∃ (fuel : Nat) (b' : Block), Block.mine fuel b65W = some b' := by
  rintro ⟨fuel, b', h⟩
  rw [mine_none_of_ge65 b65W (Nat.le_refl 65) fuel] at h
  exact absurd h (by simp)

/-! ## Claim C9 -/

/-- Claim C9: `add_transaction` errs exactly when the transaction is
invalid; the error is returned before any mutation, so the state is
unchanged, and on success the only change is the transaction appended at the
end of the pool — in particular no balance-sufficiency check appears in
either condition, so an overspending but validly signed transaction is
accepted. -/
theorem C9_add_transaction (verify : Verify) (bc : Blockchain) (tx : Transaction) :
    (tx.is_valid verify = true →
      bc.add_transaction verify tx = some { bc with mempool := bc.mempool ++ [tx] }) ∧
    (tx.is_valid verify = false → bc.add_transaction verify tx = none) := by
  constructor
  · intro hv
    unfold Blockchain.add_transaction
    rw [if_pos hv]
  · intro hv
    unfold Blockchain.add_transaction
    rw [if_neg (by simp [hv])]

def txGoodW : Transaction :=
  { source := none, destination := "B", amount := 7, signature := none }

def txBadW : Transaction :=
  { source := some "A", destination := "B", amount := 7, signature := none }

/-- Claim C9 witness: a valid transaction is appended to the pool, an
invalid one (source without signature) is rejected with the state
unchanged. -/
theorem C9_witness :
    Transaction.is_valid verifyTrue txGoodW = true ∧
    Blockchain.add_transaction verifyTrue bc0W txGoodW =
      some { bc0W with mempool := bc0W.mempool ++ [txGoodW] } ∧
    Transaction.is_valid verifyTrue txBadW = false ∧
    Blockchain.add_transaction verifyTrue bc0W txBadW = none := by
  refine ⟨rfl, ?_, rfl, ?_⟩
  · exact (C9_add_transaction verifyTrue bc0W txGoodW).1 rfl
  · exact (C9_add_transaction verifyTrue bc0W txBadW).2 rfl

/-! ## Claim C10 -/

/-- Claim C10: every reachable state has a nonempty chain (the genesis block
is always present), so the `chain.last().unwrap()` calls inside
`mine_pending_transactions` and `adjust_difficulty` can never hit a panic:
no call of `mine_pending_transactions` on a reachable state yields the
panic outcome. -/
theorem C10_reachable_no_panic (verify : Verify) (bc : Blockchain)
    (h : Reachable verify bc) :
    bc.chain ≠ [] ∧
    ∀ (fuel : Nat) (now : Int) (m : PublicKey),
      Blockchain.mine_pending_transactions fuel now bc m ≠ MineResult.panicked := by
  obtain ⟨-, -, hne, hidx⟩ := reachable_inv verify bc h
  refine ⟨hne, ?_⟩
  intro fuel now m hcontra
  unfold Blockchain.mine_pending_transactions at hcontra
  obtain ⟨d, had⟩ := adjust_isSome bc hne hidx
  rw [had] at hcontra
  dsimp only at hcontra
  cases hlast : bc.chain.getLast? with
  | none => exact hne (List.getLast?_eq_none_iff.mp hlast)
  | some last =>
    rw [hlast] at hcontra
    dsimp only at hcontra
    cases hm : Block.mine fuel (Block.new bc.chain.length
        (Transaction.new_coinbase m MINING_REWARD :: bc.mempool) last.hash d now) with
    | none => rw [hm] at hcontra; exact absurd hcontra (by simp)
    | some mined => rw [hm] at hcontra; exact absurd hcontra (by simp)

/-- Claim C10 witness: the concrete freshly created state, with a concrete
mining call that does not panic. -/
theorem C10_witness :
    Reachable verifyTrue bc0W ∧ bc0W.chain ≠ [] ∧
    Blockchain.mine_pending_transactions 3 5 bc0W "Z" ≠ MineResult.panicked := by
  have hr : Reachable verifyTrue bc0W := Reachable.base 1 69 bc0W (by decide)
  have hc := C10_reachable_no_panic verifyTrue bc0W hr
  exact ⟨hr, hc.1, hc.2 3 5 "Z"⟩

end MiniBlockchain
